import Mathlib

/-!
Verification of the `consts` package (`src/consts/basic.go`): LLVM IR integer
and floating-point constant construction (`NewInt`, `NewFloat`) and rendering
(`Int.String`, `Float.String`).

The Go code is shallowly embedded: machine integers become `Nat`/`Int` with
explicit range checks, Go strings become `String`/`List Char`, fallible
functions return an explicit result type, and a `panic` in the source becomes
the distinguished `GoResult.panicked` outcome.  The semantics of the Go
standard library functions used by the source (`strconv.ParseInt`,
`strconv.ParseUint`, `strconv.ParseFloat`, `strconv.FormatInt`,
`strconv.FormatFloat`, `strings.Replace`, `strings.ContainsRune`,
`strings.IndexByte`) are modelled faithfully to their documented behaviour;
IEEE-754 binary32/binary64 values are represented exactly as
`(-1)^sign * m * 2^e` with round-to-nearest-even realised over exact rational
arithmetic.
-/

set_option maxRecDepth 4000
set_option exponentiation.threshold 5000

/-! ### Characters and digits -/

/-- Decimal digit test, mirroring Go's `'0' <= c && c <= '9'`. -/
def isDigitChar (c : Char) : Bool :=
  '0' ≤ c && c ≤ '9'

/-- Numeric value of a decimal digit character (Go's `c - '0'`). -/
def digitVal (c : Char) : Nat :=
  c.toNat - 48

/-- Hexadecimal digit test (`0-9`, `a-f`, `A-F`). -/
def isHexDigitChar (c : Char) : Bool :=
  isDigitChar c || ('a' ≤ c && c ≤ 'f') || ('A' ≤ c && c ≤ 'F')

/-- Value of a hexadecimal digit character. -/
def hexVal (c : Char) : Nat :=
  if isDigitChar c then c.toNat - 48
  else if 'a' ≤ c && c ≤ 'f' then c.toNat - 97 + 10
  else c.toNat - 65 + 10

/-- The character for a decimal digit `d < 10`. -/
def digitChar (d : Nat) : Char :=
  match d with
  | 0 => '0' | 1 => '1' | 2 => '2' | 3 => '3' | 4 => '4'
  | 5 => '5' | 6 => '6' | 7 => '7' | 8 => '8' | 9 => '9'
  | _ => '*'

/-- Accumulate the decimal digits of `n` in front of `acc` (fuel-driven so that
it reduces definitionally; the fuel is always taken large enough). -/
def natDecAux : Nat → Nat → List Char → List Char
  | 0, _, acc => acc
  | f + 1, n, acc =>
    if n = 0 then acc else natDecAux f (n / 10) (digitChar (n % 10) :: acc)

/-- Decimal digit string of a natural number, as rendered by Go's
`strconv.FormatUint(n, 10)`: no sign, no leading zeros, `"0"` for zero. -/
def natDecChars (n : Nat) : List Char :=
  if n = 0 then ['0'] else natDecAux (n + 1) n []

/-- Rendering of an `int64` by Go's `strconv.FormatInt(x, 10)`: an optional
minus sign followed by the decimal digits of the absolute value. -/
def intChars (x : Int) : List Char :=
  if x < 0 then '-' :: natDecChars x.natAbs else natDecChars x.natAbs

/-! ### The base-10 signed-integer literal grammar (specification side)

The spec (§4.1) describes the accepted non-boolean integer literals as
"base-10 signed integer" text: an optional sign followed by at least one
decimal digit.  `decLitVal` is that grammar together with its denotation;
it is the specification-side reference against which the Go parsing code
is compared. -/

/-- Base-10 value of a digit string, starting from the accumulator `a`. -/
def valD (a : Nat) (l : List Char) : Nat :=
  l.foldl (fun a c => a * 10 + digitVal c) a

/-- Value of a non-empty all-digit string, `none` otherwise. -/
def digitsVal : List Char → Option Nat
  | [] => none
  | l => if l.all isDigitChar then some (valD 0 l) else none

/-- Does the string start with a nonzero digit followed by digits only? -/
def leadDigits : List Char → Bool
  | [] => false
  | c :: r => isDigitChar c && c ≠ '0' && r.all isDigitChar

/-- The canonical decimal form of an integer, as a predicate on strings: an
optional minus sign, no plus sign, no leading zeros (`"0"` itself excepted),
no `"-0"`. -/
def canonDecForm : List Char → Bool
  | [] => false
  | c :: r =>
    if c = '-' then leadDigits r
    else ((c :: r) == ['0'] || leadDigits (c :: r))

/-- The well-formed base-10 signed integer literals of the spec, with their
integer value: optional `+`/`-` sign, then one or more decimal digits. -/
def decLitVal : List Char → Option Int
  | [] => none
  | c :: r =>
    if c = '+' then (digitsVal r).map fun (n : Nat) => (n : Int)
    else if c = '-' then (digitsVal r).map fun (n : Nat) => -(n : Int)
    else (digitsVal (c :: r)).map fun (n : Nat) => (n : Int)

/-! ### Go `strconv.ParseUint` / `strconv.ParseInt` (base 10)

Modelled from the Go standard library's documented and stable behaviour for
an explicit base of 10: scan the digits left to right; a non-digit character
stops the scan with a syntax error; if the accumulated value reaches the
overflow cutoff before the scan ends, the result is a range error.  `ParseInt`
strips one optional sign, converts the rest via `ParseUint`, and applies the
signed two's-complement cutoffs for the requested bit size. -/

/-- A Go `strconv` error kind: `ErrSyntax` or `ErrRange`. -/
inductive NumError : Type
  | synErr
  | rangeErr
deriving DecidableEq, Repr

/-- The digit-accumulation loop of Go's `ParseUint`, with its two overflow
aborts (`n >= cutoff` before the multiply, `n1 > maxVal` after the add). -/
def parseUintLoop (cutoff maxVal : Nat) : Nat → List Char → Except NumError Nat
  | n, [] => .ok n
  | n, c :: r =>
    if isDigitChar c then
      if cutoff ≤ n then .error .rangeErr
      else
        let n1 := n * 10 + digitVal c
        if maxVal < n1 then .error .rangeErr
        else parseUintLoop cutoff maxVal n1 r
    else .error .synErr

/-- Go's `strconv.ParseUint(s, 10, bitSize)`. -/
def parseUintGo (bitSize : Nat) (l : List Char) : Except NumError Nat :=
  if l = [] then .error .synErr
  else
    let maxVal := 2 ^ bitSize - 1
    parseUintLoop (maxVal / 10 + 1) maxVal 0 l

/-- Go's `strconv.ParseInt(s, 10, bitSize)`: pick off one leading sign,
convert the remainder as unsigned, then check the signed range
`[-2^(bitSize-1), 2^(bitSize-1)-1]` (a `ParseUint` range error propagates as
a range error, since the saturated unsigned value fails the signed cutoff). -/
def parseIntGo (bitSize : Nat) (l : List Char) : Except NumError Int :=
  match l with
  | [] => .error .synErr
  | c :: r =>
    let rest : List Char := if c = '+' ∨ c = '-' then r else c :: r
    match parseUintGo bitSize rest with
    | .error e => .error e
    | .ok un =>
      let cutoff := 2 ^ (bitSize - 1)
      if c = '-' then
        if cutoff < un then .error .rangeErr else .ok (-(un : Int))
      else
        if cutoff ≤ un then .error .rangeErr else .ok (un : Int)

/-! ### Types, errors and results -/

/-- Modelled from the spec: the external type descriptors supplied by the
`types` package (not part of `src/`): an integer type carries a bit-width
(`types.Int.Size()`), a float type carries a bit-width (`types.Float.Size()`),
and a pointer type carries no width (spec §3). -/
inductive Ty : Type
  | int (width : Nat)
  | float (width : Nat)
  | pointer
deriving DecidableEq, Repr

/-- Modelled from the spec: the textual rendering of a type descriptor, used
verbatim as the prefix of a constant's rendering (spec §6: `i1`, `i32`,
`float`, `double`).  Float widths other than 32 and 64 are never rendered by
any successful path of the code under verification; they get a placeholder. -/
def tyChars : Ty → List Char
  | .int w => 'i' :: natDecChars w
  | .float w =>
    if w = 32 then "float".data
    else if w = 64 then "double".data
    else 'f' :: 'p' :: natDecChars w
  | .pointer => "ptr".data

/-- The distinct error returns of `NewInt` and `NewFloat` (each corresponds to
one `fmt.Errorf` site in `src/consts/basic.go`; `intParse`/`floatParse` wrap
the underlying `strconv` error kind, which is part of the message Go prints
via `%v`). -/
inductive ConstError : Type
  | invalidIntType
  | invalidBoolConst
  | intTypeMismatch
  | intParse (e : NumError)
  | invalidFloatType
  | floatParse (e : NumError)
  | precisionLoss
deriving DecidableEq, Repr

/-- Outcome of running a Go function that may return an error or panic. -/
inductive GoResult (α : Type) : Type
  | ok (a : α)
  | err (e : ConstError)
  | panicked
deriving DecidableEq, Repr

/-! ### Integer constants (`Int` struct, `NewInt`, `Int.String`) -/

/-- The `consts.Int` struct: an integer constant holding its `*types.Int`
type (represented by its width) and an `int64` value. -/
structure IntConst : Type where
  width : Nat
  x : Int
deriving DecidableEq, Repr

/-- Go `NewInt(typ, s)` from `src/consts/basic.go`: verify the type is an
integer type, panic above 64 bits, handle the boolean width specially, reject
boolean keywords for non-boolean widths, and otherwise parse a base-10
integer of the type's bit size. -/
def NewInt (typ : Ty) (s : String) : GoResult IntConst :=
  match typ with
  | .int size =>
    if 64 < size then .panicked
    else if size = 1 then
      if s = "1" ∨ s = "true" then .ok ⟨size, 1⟩
      else if s = "0" ∨ s = "false" then .ok ⟨size, 0⟩
      else .err .invalidBoolConst
    else if s = "true" ∨ s = "false" then .err .intTypeMismatch
    else
      match parseIntGo size s.data with
      | .ok x => .ok ⟨size, x⟩
      | .error e => .err (.intParse e)
  | _ => .err .invalidIntType

/-- Go `(*Int).String()`: `"<type> <value>"`, the value rendered as
`true`/`false` for width 1 (1 maps to `true`, everything else to `false`)
and in signed decimal otherwise. -/
def IntString (v : IntConst) : String :=
  String.mk (tyChars (.int v.width) ++ ' ' ::
    (if v.width = 1 then (if v.x = 1 then "true".data else "false".data)
     else intChars v.x))

/-! ### Exact binary floating-point values

A Go `float64` (or a `float64` holding an exactly-converted `float32`) is
represented exactly: `nan`, signed infinity, or a finite value
`(-1)^neg * m * 2^e`.  Finite values produced by `roundFin` are kept in the
canonical form of their format (normal significands in `[2^(p-1), 2^p)`,
subnormals at the fixed minimal exponent), so structural equality coincides
with IEEE equality for values of one format. -/

/-- An exactly-represented IEEE binary floating-point datum. -/
inductive GoFloat : Type
  | nan
  | inf (neg : Bool)
  | finite (neg : Bool) (m : Nat) (e : Int)
deriving DecidableEq, Repr

/-- An IEEE binary format: significand precision in bits, minimal and maximal
exponent of the leading significand bit. -/
structure FpFormat : Type where
  prec : Nat
  eMin : Int
  eMax : Int
deriving DecidableEq, Repr

/-- IEEE binary32 (Go `float32`). -/
def fmt32 : FpFormat := ⟨24, -126, 127⟩

/-- IEEE binary64 (Go `float64`). -/
def fmt64 : FpFormat := ⟨53, -1022, 1023⟩

/-- The format used by a `strconv` call with the given `bitSize`. -/
def fmtOfSize (size : Nat) : FpFormat :=
  if size = 32 then fmt32 else fmt64

/-- Bit length of a natural number (fuel-driven; fuel `n` suffices). -/
def bitLenAux : Nat → Nat → Nat
  | 0, _ => 0
  | f + 1, n => if n = 0 then 0 else bitLenAux f (n / 2) + 1

/-- Number of binary digits of `n` (0 for 0). -/
def bitLen (n : Nat) : Nat := bitLenAux (n + 1) n

/-- Decimal length of a natural number (fuel-driven). -/
def decLenAux : Nat → Nat → Nat
  | 0, _ => 0
  | f + 1, n => if n = 0 then 0 else decLenAux f (n / 10) + 1

/-- Number of decimal digits of `n` (0 for 0). -/
def decLen (n : Nat) : Nat := decLenAux (n + 1) n

/-- Decide `b^k ≤ n / d` for positive rationals given as `n / d`. -/
def powLe (b : Nat) (k : Int) (n d : Nat) : Bool :=
  if 0 ≤ k then d * b ^ k.toNat ≤ n else d ≤ n * b ^ (-k).toNat

/-- Floor of the base-2 logarithm of `n / d` (for `n, d ≥ 1`): the unique `k`
with `2^k ≤ n/d < 2^(k+1)`.  The bit-length estimate is off by at most one,
so two tests settle it. -/
def floorLog2 (n d : Nat) : Int :=
  let est : Int := (bitLen n : Int) - (bitLen d : Int)
  if powLe 2 est n d then est else est - 1

/-- Floor of the base-10 logarithm of `n / d` (for `n, d ≥ 1`). -/
def floorLog10 (n d : Nat) : Int :=
  let est : Int := (decLen n : Int) - (decLen d : Int)
  if powLe 10 est n d then est else est - 1

/-- Round `n / d` to the nearest integer, ties to even. -/
def roundHalfEven (n d : Nat) : Nat :=
  let q := n / d
  let r := n % d
  if 2 * r < d then q
  else if d < 2 * r then q + 1
  else if q % 2 = 0 then q else q + 1

/-- Multiply the rational `n / d` by `b^k`. -/
def scalePow (b : Nat) (k : Int) (n d : Nat) : Nat × Nat :=
  if 0 ≤ k then (n * b ^ k.toNat, d) else (n, d * b ^ (-k).toNat)

/-- Round the rational `(-1)^neg * n / d` to the nearest value of the format
(ties to even), yielding a canonical finite value or an infinity on overflow.
This is IEEE-754 round-to-nearest-even, the rounding performed by Go's
`strconv.ParseFloat` and by Go's `float64` → `float32` conversion. -/
def roundFin (fmt : FpFormat) (neg : Bool) (n d : Nat) : GoFloat :=
  if n = 0 then .finite neg 0 0
  else
    let l := floorLog2 n d
    let t : Int := max l fmt.eMin - ((fmt.prec : Int) - 1)
    let (n', d') := scalePow 2 (-t) n d
    let m := roundHalfEven n' d'
    let (m, t) := if m = 2 ^ fmt.prec then (2 ^ (fmt.prec - 1), t + 1) else (m, t)
    if m = 0 then .finite neg 0 0
    else
      let k : Int := fmt.eMax + 1 - t
      if if 0 ≤ k then 2 ^ k.toNat ≤ m else True then .inf neg
      else .finite neg m t

/-- The exact value of a finite float `m * 2^e` as a pair `n / d`. -/
def ratOfFin (m : Nat) (e : Int) : Nat × Nat :=
  scalePow 2 e m 1

/-! ### Go `strconv.ParseFloat`

Modelled from the Go standard library's documented behaviour: the
case-insensitive special tokens (`inf`/`infinity` with optional sign, `nan`
unsigned), decimal mantissa with optional fraction and optional decimal
exponent, or hexadecimal mantissa with a mandatory binary (`p`) exponent;
the whole input must be consumed.  The numeric result is the input value
correctly rounded to the requested precision; a value that rounds to an
infinity yields `ErrRange`.  (Digit-group underscores, accepted by Go when
the literal matches the Go source grammar, are not modelled; no input
relevant to the claims contains them.) -/

/-- ASCII lower-casing of `A`-`Z`, as used by Go's case-insensitive matching
of special float tokens. -/
def lowerChar (c : Char) : Char :=
  if 'A' ≤ c && c ≤ 'Z' then Char.ofNat (c.toNat + 32) else c

/-- Does the string match `inf` or `infinity`, case-insensitively? -/
def infTok (l : List Char) : Bool :=
  l.map lowerChar = "inf".data || l.map lowerChar = "infinity".data

/-- Go `strconv`'s `special`, restricted to full-string matches (a partial
match makes `ParseFloat` fail with a syntax error, exactly as the grammar
path does): `inf`/`infinity` with optional sign, `nan` without sign. -/
def specialFull (l : List Char) : Option GoFloat :=
  match l with
  | [] => none
  | c :: r =>
    if c = '+' then (if infTok r then some (.inf false) else none)
    else if c = '-' then (if infTok r then some (.inf true) else none)
    else if infTok (c :: r) then some (.inf false)
    else if (c :: r).map lowerChar = "nan".data then some .nan
    else none

/-- Split a list at the first character failing `p`. -/
def spanP (p : Char → Bool) : List Char → List Char × List Char
  | [] => ([], [])
  | c :: r =>
    if p c then
      let (a, b) := spanP p r
      (c :: a, b)
    else ([], c :: r)

/-- The fraction digits after an optional decimal point: if the input starts
with `.`, span the digits after it; otherwise there is no fraction. -/
def fracSplit (p : Char → Bool) : List Char → List Char × List Char
  | [] => ([], [])
  | c :: r => if c = '.' then spanP p r else ([], c :: r)

/-- Value of a digit list under the given base. -/
def digitsValIn (base : Nat) (v : Char → Nat) (l : List Char) : Nat :=
  l.foldl (fun a c => a * base + v c) 0

/-- Parse the exponent part after `e`/`E`/`p`/`P`: an optional sign and at
least one decimal digit; returns the exponent and the remaining input. -/
def parseExpPart (l : List Char) : Option (Int × List Char) :=
  match l with
  | [] => none
  | c :: r =>
    let (neg, l') :=
      if c = '+' then (false, r)
      else if c = '-' then (true, r)
      else (false, c :: r)
    match spanP isDigitChar l' with
    | (ds, rest) =>
      if ds = [] then none
      else
        some ((if neg then -(digitsValIn 10 digitVal ds : Int)
               else (digitsValIn 10 digitVal ds : Int)), rest)

/-- A successfully scanned floating-point literal: sign, integral mantissa,
and an exponent that is a power of 10 (decimal form) or of 2 (hex form). -/
inductive FloatLit : Type
  | dec (neg : Bool) (mant : Nat) (exp10 : Int)
  | hex (neg : Bool) (mant : Nat) (exp2 : Int)
deriving DecidableEq, Repr

/-- Scan the mantissa and exponent of a decimal literal (Go `readFloat`,
decimal case): digits, optional `.` and fraction digits (at least one digit
in total), then an optional `e`/`E` exponent; the input must be consumed. -/
def readDec (neg : Bool) (l : List Char) : Option FloatLit :=
  match spanP isDigitChar l with
  | (ip, r1) =>
    match fracSplit isDigitChar r1 with
    | (fp, r2) =>
      if ip = [] ∧ fp = [] then none
      else
        match r2 with
        | [] => some (.dec neg (digitsValIn 10 digitVal (ip ++ fp)) (-(fp.length : Int)))
        | c :: r3 =>
          if c = 'e' ∨ c = 'E' then
            match parseExpPart r3 with
            | none => none
            | some (ev, rest) =>
              if rest = [] then
                some (.dec neg (digitsValIn 10 digitVal (ip ++ fp))
                  (-(fp.length : Int) + ev))
              else none
          else none

/-- Scan the mantissa and exponent of a hexadecimal literal (Go `readFloat`,
hex case, after the `0x` prefix): hex digits with an optional point, then a
mandatory `p`/`P` binary exponent; the input must be consumed. -/
def readHex (neg : Bool) (l : List Char) : Option FloatLit :=
  match spanP isHexDigitChar l with
  | (ip, r1) =>
    match fracSplit isHexDigitChar r1 with
    | (fp, r2) =>
      if ip = [] ∧ fp = [] then none
      else
        match r2 with
        | [] => none
        | c :: r3 =>
          if c = 'p' ∨ c = 'P' then
            match parseExpPart r3 with
            | none => none
            | some (ev, rest) =>
              if rest = [] then
                some (.hex neg (digitsValIn 16 hexVal (ip ++ fp))
                  (-4 * (fp.length : Int) + ev))
              else none
          else none

/-- The body of Go `readFloat` after the optional sign: a `0x`/`0X` prefix
selects the hexadecimal grammar, anything else the decimal grammar. -/
def readFloatBody (neg : Bool) (l : List Char) : Option FloatLit :=
  match l with
  | [] => none
  | [c] => readDec neg [c]
  | c0 :: c1 :: r =>
    if c0 = '0' ∧ (c1 = 'x' ∨ c1 = 'X') then readHex neg r
    else readDec neg (c0 :: c1 :: r)

/-- Go `readFloat`: optional sign, then a decimal or hexadecimal literal. -/
def readFloatLit (l : List Char) : Option FloatLit :=
  match l with
  | [] => none
  | c :: r =>
    if c = '+' then readFloatBody false r
    else if c = '-' then readFloatBody true r
    else readFloatBody false (c :: r)

/-- Convert a scanned literal to a correctly-rounded value of the format.
Magnitudes far beyond every representable value short-circuit to an infinity
or to zero (Go caps decimal exponents the same way); within the cap the
computation is exact. -/
def litToFloat (fmt : FpFormat) (lit : FloatLit) : GoFloat :=
  match lit with
  | .dec neg mant e =>
    if mant = 0 then .finite neg 0 0
    else
      let mag : Int := (decLen mant : Int) + e
      if 400 < mag then .inf neg
      else if mag < -400 then .finite neg 0 0
      else
        let (n, d) := scalePow 10 e mant 1
        roundFin fmt neg n d
  | .hex neg mant e =>
    if mant = 0 then .finite neg 0 0
    else
      let mag : Int := (bitLen mant : Int) + e
      if 1200 < mag then .inf neg
      else if mag < -1200 then .finite neg 0 0
      else
        let (n, d) := scalePow 2 e mant 1
        roundFin fmt neg n d

/-- Go `strconv.ParseFloat(s, bitSize)`: special tokens, else the scanned
literal correctly rounded; round-to-infinity overflow is `ErrRange`,
unscannable input is `ErrSyntax`. -/
def parseFloatGo (fmt : FpFormat) (l : List Char) : Except NumError GoFloat :=
  match specialFull l with
  | some f => .ok f
  | none =>
    match readFloatLit l with
    | none => .error .synErr
    | some lit =>
      match litToFloat fmt lit with
      | .inf _ => .error .rangeErr
      | .nan => .ok .nan
      | .finite neg m e => .ok (.finite neg m e)

/-! ### Go `strconv.FormatFloat(x, 'g', -1, bitSize)`

Modelled from the Go standard library's documented behaviour: the shortest
decimal digit string that parses back (at the same bit size) to exactly the
same value, with correctly-rounded digits, presented in `%e` style when the
decimal exponent is below -4 or at least 6 and in `%f` style otherwise; the
`%e` exponent carries an explicit sign and at least two digits. -/

/-- Correctly round the positive rational `n / d` to `nd` significant decimal
digits (ties to even), returning the digit block `D` (with `10^(nd-1) ≤ D <
10^nd`) and the decimal point position `dp` (the value is `D * 10^(dp-nd)`,
that is `0.D * 10^dp`). -/
def roundDecimal (nd : Nat) (n d : Nat) : Nat × Int :=
  let dp : Int := floorLog10 n d + 1
  let (n', d') := scalePow 10 ((nd : Int) - dp) n d
  let D := roundHalfEven n' d'
  if D = 10 ^ nd then (10 ^ (nd - 1), dp + 1) else (D, dp)

/-- Search for the fewest significant digits whose correctly-rounded decimal
parses back (in the given format) to exactly the float `(-1)^neg * m * 2^e`;
Go's shortest-formatting contract.  17 digits always suffice for binary64
(9 for binary32), so the fuel never runs out. -/
def shortestDigits (fmt : FpFormat) (neg : Bool) (m : Nat) (e : Int) :
    Nat → Nat → Nat × Int
  | 0, nd =>
    let (n, d) := ratOfFin m e
    roundDecimal nd n d
  | f + 1, nd =>
    let (n, d) := ratOfFin m e
    let (D, dp) := roundDecimal nd n d
    let (cn, cd) := scalePow 10 (dp - (nd : Int)) D 1
    if roundFin fmt neg cn cd = .finite neg m e then (D, dp)
    else shortestDigits fmt neg m e f (nd + 1)

/-- Mantissa part of a `%e` rendering: `d` or `d.ddd`. -/
def mantPart : List Char → List Char
  | [] => []
  | [c] => [c]
  | c :: r => c :: '.' :: r

/-- Exponent digits of a `%e` rendering: at least two decimal digits. -/
def expDigits (n : Nat) : List Char :=
  let l := natDecChars n
  if l.length < 2 then '0' :: l else l

/-- Go's `%e` formatting of a digit block `D` with scientific exponent `exp`:
sign, first digit, point, remaining digits, `e`, exponent sign, exponent. -/
def fmtE (neg : Bool) (D : List Char) (exp : Int) : List Char :=
  ((if neg then ['-'] else []) ++ mantPart D) ++
    'e' :: (if exp < 0 then '-' else '+') :: expDigits exp.natAbs

/-- Go's `%f` formatting of a digit block `D` with decimal point position
`dp`: plain positional notation, no exponent, no trailing fraction zeros. -/
def fmtF (neg : Bool) (D : List Char) (dp : Int) : List Char :=
  (if neg then ['-'] else []) ++
    (if dp ≤ 0 then '0' :: '.' :: (List.replicate (-dp).toNat '0' ++ D)
     else if (D.length : Int) ≤ dp then D ++ List.replicate (dp - D.length).toNat '0'
     else D.take dp.toNat ++ '.' :: D.drop dp.toNat)

/-- Format a nonzero canonical finite value of the format in shortest `%g`
style. -/
def formatFin (fmt : FpFormat) (neg : Bool) (m : Nat) (e : Int) : List Char :=
  let (D, dp) := shortestDigits fmt neg m e 18 1
  let exp : Int := dp - 1
  if exp < -4 ∨ 6 ≤ exp then fmtE neg (natDecChars D) exp
  else fmtF neg (natDecChars D) dp

/-- Go `strconv.FormatFloat(x, 'g', -1, bitSize)`: convert to the format
(exact whenever the value already is of the format, as at every call site in
the source), then render in shortest `%g` style; `NaN`, `+Inf`, `-Inf` and
signed zeros render as themselves. -/
def formatFloat (fmt : FpFormat) (v : GoFloat) : List Char :=
  match v with
  | .nan => "NaN".data
  | .inf neg => if neg then "-Inf".data else "+Inf".data
  | .finite neg m e =>
    let (n, d) := ratOfFin m e
    match roundFin fmt neg n d with
    | .nan => "NaN".data
    | .inf neg' => if neg' then "-Inf".data else "+Inf".data
    | .finite neg' m' e' =>
      if m' = 0 then (if neg' then ['-', '0'] else ['0'])
      else formatFin fmt neg' m' e'

/-! ### Float constants (`Float` struct, `NewFloat`, `Float.String`) -/

/-- The `consts.Float` struct: a floating-point constant holding its
`*types.Float` type (represented by its width) and a `float64` value. -/
structure FloatConst : Type where
  width : Nat
  x : GoFloat
deriving DecidableEq, Repr

/-- Go `NewFloat(typ, s)` from `src/consts/basic.go`: verify the type is a
float type, panic unless the width is 32 or 64, parse the literal at the
type's precision, and reject the result with a precision-loss error when the
width is not 64 and the two renderings of the parsed value (at the type's
width and at width 64) differ. -/
def NewFloat (typ : Ty) (s : String) : GoResult FloatConst :=
  match typ with
  | .float size =>
    if size = 32 ∨ size = 64 then
      match parseFloatGo (fmtOfSize size) s.data with
      | .error e => .err (.floatParse e)
      | .ok x =>
        if size ≠ 64 ∧ formatFloat (fmtOfSize size) x ≠ formatFloat fmt64 x
        then .err .precisionLoss
        else .ok ⟨size, x⟩
    else .panicked
  | _ => .err .invalidFloatType

/-- Insert `".0"` before the first `e` (Go `strings.IndexByte(s, 'e')`), or
append it when there is none. -/
def insertDotAux : List Char → List Char
  | [] => ['.', '0']
  | c :: r => if c = 'e' then '.' :: '0' :: c :: r else c :: insertDotAux r

/-- The decimal-point insertion of `(*Float).String()`: leave strings that
already contain `'.'` alone (Go `strings.ContainsRune(s, '.')`). -/
def insertDot (l : List Char) : List Char :=
  if l.contains '.' then l else insertDotAux l

/-- Go `strings.Replace(s, "e+", "e", -1)`: replace every non-overlapping
occurrence of `"e+"`, left to right. -/
def replaceEPlus : List Char → List Char
  | [] => []
  | [c] => [c]
  | a :: b :: r =>
    if a = 'e' ∧ b = '+' then 'e' :: replaceEPlus r
    else a :: replaceEPlus (b :: r)

/-- The canonicalisation applied by `(*Float).String()` to the rendered
value: insert a decimal point if absent, then drop explicit plus signs in
exponents. -/
def canonFloatChars (l : List Char) : List Char :=
  replaceEPlus (insertDot l)

/-- Does the string contain the substring `"e+"`? -/
def containsEPlus : List Char → Bool
  | [] => false
  | [_] => false
  | a :: b :: r => (a = 'e' && b = '+') || containsEPlus (b :: r)

/-- Go `(*Float).String()`: panic unless the width is 32 or 64, then
`"<type> <value>"` with the value rendered shortest at the constant's width
and canonicalised. -/
def FloatString (v : FloatConst) : GoResult String :=
  if v.width = 32 ∨ v.width = 64 then
    .ok (String.mk (tyChars (.float v.width) ++ ' ' ::
      canonFloatChars (formatFloat (fmtOfSize v.width) v.x)))
  else .panicked

/-! ### The claimed hexadecimal literal forms (specification side) -/

/-- The hexadecimal integer literal form of the claim,
`[us]0x[0-9A-Fa-f]+`. -/
def hexIntLit (l : List Char) : Bool :=
  match l with
  | c :: '0' :: 'x' :: ds =>
    (c = 'u' || c = 's') && !ds.isEmpty && ds.all isHexDigitChar
  | _ => false

/-- The four float-kind marker letters of the hexadecimal float grammar. -/
def klmh (c : Char) : Bool :=
  c = 'K' || c = 'L' || c = 'M' || c = 'H'

/-- The hexadecimal float literal form of the claim,
`0x[KLMH]?[0-9A-Fa-f]+`. -/
def hexFloatLit (l : List Char) : Bool :=
  match l with
  | '0' :: 'x' :: r =>
    (!r.isEmpty && r.all isHexDigitChar) ||
      (match r with
       | k :: ds => klmh k && !ds.isEmpty && ds.all isHexDigitChar
       | [] => false)
  | _ => false


/-- A string is exponent-plus safe when it either contains no `e` at all or
is of the form `A ++ 'e' :: sign :: B` with `e`-free `A` and `B` and
plus-free `B` — the shape of every `FormatFloat` output.  The
canonicalisation of `Float.String` maps such strings to strings without the
substring `"e+"`. -/
def EPlusSafe (l : List Char) : Prop :=
  ('e' ∉ l) ∨
    ∃ A c B, l = A ++ 'e' :: c :: B ∧ 'e' ∉ A ∧ 'e' ∉ B ∧ '+' ∉ B ∧
      (c = '+' ∨ c = '-')


/-! ### Helper lemmas: digit characters -/

theorem digitVal_digitChar {d : Nat} (h : d < 10) : digitVal (digitChar d) = d := by
  interval_cases d <;> decide

theorem isDigitChar_digitChar {d : Nat} (h : d < 10) :
    isDigitChar (digitChar d) = true := by
  interval_cases d <;> decide

theorem digitChar_not_sign {d : Nat} (h : d < 10) :
    digitChar d ≠ '+' ∧ digitChar d ≠ '-' := by
  interval_cases d <;> exact ⟨by decide, by decide⟩

theorem digitChar_ne_zero {d : Nat} (h0 : 0 < d) (h : d < 10) :
    digitChar d ≠ '0' := by
  interval_cases d <;> decide

/-! ### Helper lemmas: values of digit strings -/

theorem valD_nil (a : Nat) : valD a [] = a := rfl

theorem valD_cons (a : Nat) (c : Char) (l : List Char) :
    valD a (c :: l) = valD (a * 10 + digitVal c) l := rfl

theorem valD_append (a : Nat) (l1 l2 : List Char) :
    valD a (l1 ++ l2) = valD (valD a l1) l2 := by
  simp [valD, List.foldl_append]

theorem valD_ge (a : Nat) (l : List Char) : a * 10 ^ l.length ≤ valD a l := by
  induction l generalizing a with
  | nil => simp [valD]
  | cons c r ih =>
    rw [valD_cons]
    have h1 : a * 10 ^ (c :: r).length = (a * 10) * 10 ^ r.length := by
      rw [List.length_cons, pow_succ]
      ring
    rw [h1]
    exact le_trans (Nat.mul_le_mul_right _ (by omega)) (ih (a * 10 + digitVal c))

theorem valD_self_le (a : Nat) (l : List Char) : a ≤ valD a l := by
  have h := valD_ge a l
  have h10 : 1 ≤ 10 ^ l.length := Nat.one_le_pow _ _ (by omega)
  calc a = a * 1 := (Nat.mul_one a).symm
    _ ≤ a * 10 ^ l.length := Nat.mul_le_mul_left _ h10
    _ ≤ valD a l := h

/-! ### Helper lemmas: the `ParseUint` loop -/

theorem parseUintLoop_ok (mv : Nat) (l : List Char) :
    ∀ a, (∀ c ∈ l, isDigitChar c) → valD a l ≤ mv →
      parseUintLoop (mv / 10 + 1) mv a l = .ok (valD a l) := by
  induction l with
  | nil => intro a _ _; rfl
  | cons c r ih =>
    intro a hd hv
    have hc : isDigitChar c := hd c (List.mem_cons_self c r)
    have hge : a * 10 + digitVal c ≤ valD (a * 10 + digitVal c) r := valD_self_le _ _
    rw [valD_cons] at hv
    have hnc : ¬ (mv / 10 + 1 ≤ a) := by
      intro hcut
      omega
    simp only [parseUintLoop]
    rw [if_pos hc, if_neg hnc, if_neg (by omega), valD_cons]
    exact ih _ (fun x hx => hd x (List.mem_cons_of_mem _ hx)) hv

theorem parseUintLoop_range (mv : Nat) (l : List Char) :
    ∀ a, (∀ c ∈ l, isDigitChar c) → a ≤ mv → mv < valD a l →
      parseUintLoop (mv / 10 + 1) mv a l = .error .rangeErr := by
  induction l with
  | nil =>
    intro a _ ha hv
    rw [valD_nil] at hv
    omega
  | cons c r ih =>
    intro a hd ha hv
    have hc : isDigitChar c := hd c (List.mem_cons_self c r)
    simp only [parseUintLoop]
    rw [if_pos hc]
    by_cases hcut : mv / 10 + 1 ≤ a
    · rw [if_pos hcut]
    · rw [if_neg hcut]
      by_cases hn1 : mv < a * 10 + digitVal c
      · rw [if_pos hn1]
      · rw [if_neg hn1]
        rw [valD_cons] at hv
        exact ih _ (fun x hx => hd x (List.mem_cons_of_mem _ hx)) (by omega) hv

theorem parseUintLoop_notdigit (mv : Nat) (l : List Char) :
    ∀ a, ¬ (∀ c ∈ l, isDigitChar c) →
      parseUintLoop (mv / 10 + 1) mv a l = .error .synErr ∨
      parseUintLoop (mv / 10 + 1) mv a l = .error .rangeErr := by
  induction l with
  | nil =>
    intro a h
    exact absurd (fun c hc => absurd hc (List.not_mem_nil c)) h
  | cons c r ih =>
    intro a h
    simp only [parseUintLoop]
    by_cases hc : isDigitChar c
    · rw [if_pos hc]
      by_cases hcut : mv / 10 + 1 ≤ a
      · rw [if_pos hcut]
        right
        rfl
      · rw [if_neg hcut]
        by_cases hn1 : mv < a * 10 + digitVal c
        · rw [if_pos hn1]
          right
          rfl
        · rw [if_neg hn1]
          refine ih _ (fun hall => h ?_)
          intro x hx
          rcases List.mem_cons.mp hx with h1 | h2
          · rw [h1]
            exact hc
          · exact hall x h2
    · rw [if_neg hc]
      left
      rfl

/-! ### Helper lemmas: `digitsVal` and `parseUintGo` -/

theorem digitsVal_some_iff (l : List Char) (v : Nat) :
    digitsVal l = some v ↔ l ≠ [] ∧ l.all isDigitChar = true ∧ valD 0 l = v := by
  cases l with
  | nil => simp [digitsVal]
  | cons c r =>
    show (if (c :: r).all isDigitChar then some (valD 0 (c :: r)) else none) = some v ↔ _
    by_cases hall : (c :: r).all isDigitChar
    · rw [if_pos hall]
      simp [hall]
    · rw [if_neg hall]
      simp [hall]

theorem digitsVal_none_iff (l : List Char) :
    digitsVal l = none ↔ l = [] ∨ l.all isDigitChar = false := by
  cases l with
  | nil => simp [digitsVal]
  | cons c r =>
    show (if (c :: r).all isDigitChar then some (valD 0 (c :: r)) else none) = none ↔ _
    by_cases hall : (c :: r).all isDigitChar
    · rw [if_pos hall]
      simp [hall]
    · rw [if_neg hall]
      constructor
      · intro _
        right
        exact Bool.eq_false_iff.mpr hall
      · intro _
        rfl

theorem parseUintGo_of_digitsVal_some (b : Nat) (l : List Char) (v : Nat)
    (h : digitsVal l = some v) :
    (v ≤ 2 ^ b - 1 → parseUintGo b l = .ok v) ∧
    (2 ^ b - 1 < v → parseUintGo b l = .error .rangeErr) := by
  obtain ⟨hne, hall, hval⟩ := (digitsVal_some_iff l v).mp h
  have hd : ∀ c ∈ l, isDigitChar c := fun c hc => List.all_eq_true.mp hall c hc
  constructor
  · intro hle
    simp only [parseUintGo]
    rw [if_neg hne, ← hval]
    exact parseUintLoop_ok _ _ 0 hd (hval ▸ hle)
  · intro hlt
    simp only [parseUintGo]
    rw [if_neg hne]
    exact parseUintLoop_range _ _ 0 hd (by omega) (hval ▸ hlt)

theorem parseUintGo_of_digitsVal_none (b : Nat) (l : List Char)
    (h : digitsVal l = none) :
    parseUintGo b l = .error .synErr ∨ parseUintGo b l = .error .rangeErr := by
  rcases (digitsVal_none_iff l).mp h with hnil | hbad
  · left
    rw [hnil]
    rfl
  · have hne : l ≠ [] := by
      intro hl
      rw [hl] at hbad
      simp at hbad
    simp only [parseUintGo]
    rw [if_neg hne]
    refine parseUintLoop_notdigit _ _ 0 ?_
    intro hall
    rw [List.all_eq_true.mpr hall] at hbad
    exact Bool.noConfusion hbad

/-! ### Helper lemmas: `ParseInt` against the literal grammar -/

theorem pow_sub_one_le (b : Nat) (hb : 1 ≤ b) : 2 ^ (b - 1) ≤ 2 ^ b - 1 := by
  have h : 2 ^ b = 2 ^ (b - 1) * 2 := by
    conv_lhs => rw [← Nat.sub_add_cancel hb]
    rw [pow_succ]
  have hp : 1 ≤ 2 ^ (b - 1) := Nat.one_le_pow _ _ (by omega)
  omega

theorem parseIntGo_some (b : Nat) (hb : 1 ≤ b) (l : List Char) (n : Int)
    (h : decLitVal l = some n) :
    ((-((2 ^ (b - 1) : Nat) : Int) ≤ n ∧ n ≤ ((2 ^ (b - 1) : Nat) : Int) - 1) →
        parseIntGo b l = .ok n) ∧
    ((n < -((2 ^ (b - 1) : Nat) : Int) ∨ ((2 ^ (b - 1) : Nat) : Int) - 1 < n) →
        parseIntGo b l = .error .rangeErr) := by
  have hmv := pow_sub_one_le b hb
  have hp1 : 1 ≤ 2 ^ (b - 1) := Nat.one_le_pow _ _ (by omega)
  cases l with
  | nil => exact absurd h (by simp [decLitVal])
  | cons c r =>
    simp only [decLitVal] at h
    by_cases hplus : c = '+'
    · subst hplus
      rw [if_pos rfl] at h
      cases hr : digitsVal r with
      | none =>
        rw [hr] at h
        exact absurd h (by simp)
      | some un =>
        rw [hr, Option.map_some'] at h
        have hn : (un : Int) = n := Option.some.inj h
        subst hn
        constructor
        · rintro ⟨hlo, hhi⟩
          simp only [parseIntGo]
          rw [if_pos (Or.inl trivial),
            (parseUintGo_of_digitsVal_some b r un hr).1 (by omega)]
          have hun2 : ¬ (2 ^ (b - 1) ≤ un) := by omega
          simp [hun2]
        · intro hd
          have hun : 2 ^ (b - 1) ≤ un := by omega
          simp only [parseIntGo]
          rw [if_pos (Or.inl trivial)]
          by_cases hmx : un ≤ 2 ^ b - 1
          · rw [(parseUintGo_of_digitsVal_some b r un hr).1 hmx]
            simp [hun]
          · rw [(parseUintGo_of_digitsVal_some b r un hr).2 (by omega)]
    · by_cases hminus : c = '-'
      · subst hminus
        rw [if_neg (by decide), if_pos rfl] at h
        cases hr : digitsVal r with
        | none =>
          rw [hr] at h
          exact absurd h (by simp)
        | some un =>
          rw [hr, Option.map_some'] at h
          have hn : -(un : Int) = n := Option.some.inj h
          subst hn
          constructor
          · rintro ⟨hlo, hhi⟩
            simp only [parseIntGo]
            rw [if_pos (Or.inr trivial),
              (parseUintGo_of_digitsVal_some b r un hr).1 (by omega)]
            have hun2 : ¬ (2 ^ (b - 1) < un) := by omega
            simp [hun2]
          · intro hd
            have hun : 2 ^ (b - 1) < un := by omega
            simp only [parseIntGo]
            rw [if_pos (Or.inr trivial)]
            by_cases hmx : un ≤ 2 ^ b - 1
            · rw [(parseUintGo_of_digitsVal_some b r un hr).1 hmx]
              simp [hun]
            · rw [(parseUintGo_of_digitsVal_some b r un hr).2 (by omega)]
      · rw [if_neg hplus, if_neg hminus] at h
        cases hr : digitsVal (c :: r) with
        | none =>
          rw [hr] at h
          exact absurd h (by simp)
        | some un =>
          rw [hr, Option.map_some'] at h
          have hn : (un : Int) = n := Option.some.inj h
          subst hn
          constructor
          · rintro ⟨hlo, hhi⟩
            simp only [parseIntGo]
            rw [if_neg (fun hc => hc.elim hplus hminus),
              (parseUintGo_of_digitsVal_some b (c :: r) un hr).1 (by omega)]
            have hun2 : ¬ (2 ^ (b - 1) ≤ un) := by omega
            simp [hminus, hun2]
          · intro hd
            have hun : 2 ^ (b - 1) ≤ un := by omega
            simp only [parseIntGo]
            rw [if_neg (fun hc => hc.elim hplus hminus)]
            by_cases hmx : un ≤ 2 ^ b - 1
            · rw [(parseUintGo_of_digitsVal_some b (c :: r) un hr).1 hmx]
              simp [hminus, hun]
            · rw [(parseUintGo_of_digitsVal_some b (c :: r) un hr).2 (by omega)]

theorem parseIntGo_none (b : Nat) (l : List Char) (h : decLitVal l = none) :
    parseIntGo b l = .error .synErr ∨ parseIntGo b l = .error .rangeErr := by
  cases l with
  | nil =>
    left
    rfl
  | cons c r =>
    simp only [decLitVal] at h
    simp only [parseIntGo]
    by_cases hplus : c = '+'
    · subst hplus
      rw [if_pos rfl, Option.map_eq_none'] at h
      rw [if_pos (Or.inl rfl)]
      rcases parseUintGo_of_digitsVal_none b r h with he | he <;> rw [he]
      · left
        rfl
      · right
        rfl
    · by_cases hminus : c = '-'
      · subst hminus
        rw [if_neg (by decide), if_pos rfl, Option.map_eq_none'] at h
        rw [if_pos (Or.inr rfl)]
        rcases parseUintGo_of_digitsVal_none b r h with he | he <;> rw [he]
        · left
          rfl
        · right
          rfl
      · rw [if_neg hplus, if_neg hminus, Option.map_eq_none'] at h
        rw [if_neg (fun hc => hc.elim hplus hminus)]
        rcases parseUintGo_of_digitsVal_none b (c :: r) h with he | he <;> rw [he]
        · left
          rfl
        · right
          rfl

/-! ### Helper lemmas: `NewInt` on non-boolean widths -/

theorem decLitVal_true_false :
    decLitVal "true".data = none ∧ decLitVal "false".data = none := by
  exact ⟨by decide, by decide⟩

theorem NewInt_ok_of_decLit (w : Nat) (s : String) (n : Int)
    (hw1 : 2 ≤ w) (hw2 : w ≤ 64) (h : decLitVal s.data = some n)
    (hlo : -((2 ^ (w - 1) : Nat) : Int) ≤ n)
    (hhi : n ≤ ((2 ^ (w - 1) : Nat) : Int) - 1) :
    NewInt (.int w) s = .ok ⟨w, n⟩ := by
  have hst : s ≠ "true" := by
    intro hs
    rw [hs, decLitVal_true_false.1] at h
    exact Option.noConfusion h
  have hsf : s ≠ "false" := by
    intro hs
    rw [hs, decLitVal_true_false.2] at h
    exact Option.noConfusion h
  simp only [NewInt]
  rw [if_neg (by omega), if_neg (by omega), if_neg (fun hc => hc.elim hst hsf),
    (parseIntGo_some w (by omega) s.data n h).1 ⟨hlo, hhi⟩]

theorem NewInt_range_of_decLit (w : Nat) (s : String) (n : Int)
    (hw1 : 2 ≤ w) (hw2 : w ≤ 64) (h : decLitVal s.data = some n)
    (hout : n < -((2 ^ (w - 1) : Nat) : Int) ∨ ((2 ^ (w - 1) : Nat) : Int) - 1 < n) :
    NewInt (.int w) s = .err (.intParse .rangeErr) := by
  have hst : s ≠ "true" := by
    intro hs
    rw [hs, decLitVal_true_false.1] at h
    exact Option.noConfusion h
  have hsf : s ≠ "false" := by
    intro hs
    rw [hs, decLitVal_true_false.2] at h
    exact Option.noConfusion h
  simp only [NewInt]
  rw [if_neg (by omega), if_neg (by omega), if_neg (fun hc => hc.elim hst hsf),
    (parseIntGo_some w (by omega) s.data n h).2 hout]

theorem NewInt_malformed (w : Nat) (s : String)
    (hw1 : 2 ≤ w) (hw2 : w ≤ 64) (h : decLitVal s.data = none)
    (hst : s ≠ "true") (hsf : s ≠ "false") :
    NewInt (.int w) s = .err (.intParse .synErr) ∨
    NewInt (.int w) s = .err (.intParse .rangeErr) := by
  simp only [NewInt]
  rw [if_neg (by omega), if_neg (by omega), if_neg (fun hc => hc.elim hst hsf)]
  rcases parseIntGo_none w s.data h with he | he <;> rw [he]
  · left
    rfl
  · right
    rfl

theorem NewInt_keyword (w : Nat) (s : String)
    (hw2 : w ≤ 64) (hw1 : w ≠ 1) (hs : s = "true" ∨ s = "false") :
    NewInt (.int w) s = .err .intTypeMismatch := by
  simp only [NewInt]
  rw [if_neg (by omega), if_neg hw1, if_pos hs]

/-! ### Helper lemmas: decimal rendering of naturals -/

theorem natDecAux_zero (f : Nat) (acc : List Char) : natDecAux f 0 acc = acc := by
  cases f with
  | zero => rfl
  | succ f => simp [natDecAux]

theorem natDecAux_append (f : Nat) :
    ∀ n acc, natDecAux f n acc = natDecAux f n [] ++ acc := by
  induction f with
  | zero =>
    intro n acc
    rfl
  | succ f ih =>
    intro n acc
    by_cases h : n = 0
    · simp [natDecAux, h]
    · simp only [natDecAux, if_neg h]
      rw [ih (n / 10) (digitChar (n % 10) :: acc), ih (n / 10) [digitChar (n % 10)]]
      simp

theorem natDecAux_mem (f : Nat) :
    ∀ n c, c ∈ natDecAux f n [] → ∃ d, d < 10 ∧ c = digitChar d := by
  induction f with
  | zero =>
    intro n c hc
    exact absurd hc (List.not_mem_nil c)
  | succ f ih =>
    intro n c hc
    by_cases h : n = 0
    · rw [h, natDecAux_zero] at hc
      exact absurd hc (List.not_mem_nil c)
    · simp only [natDecAux, if_neg h] at hc
      rw [natDecAux_append] at hc
      rcases List.mem_append.mp hc with h1 | h2
      · exact ih (n / 10) c h1
      · refine ⟨n % 10, Nat.mod_lt _ (by omega), ?_⟩
        rcases List.mem_singleton.mp h2 with rfl
        rfl

theorem natDecAux_val (f : Nat) :
    ∀ n, n < 10 ^ f → valD 0 (natDecAux f n []) = n := by
  induction f with
  | zero =>
    intro n h
    have hn : n = 0 := by
      have := h
      simp at this
      omega
    rw [hn]
    rfl
  | succ f ih =>
    intro n h
    by_cases h0 : n = 0
    · rw [h0, natDecAux_zero]
      rfl
    · simp only [natDecAux, if_neg h0]
      rw [natDecAux_append, valD_append]
      have hdiv : n / 10 < 10 ^ f := by
        have h2 : n < 10 ^ f * 10 := by
          rw [pow_succ] at h
          exact h
        exact Nat.div_lt_of_lt_mul (by omega)
      rw [ih (n / 10) hdiv]
      show valD (n / 10) [digitChar (n % 10)] = n
      rw [valD_cons, valD_nil, digitVal_digitChar (Nat.mod_lt _ (by omega))]
      omega

theorem natDecAux_head (f : Nat) :
    ∀ n, 0 < n → n < 10 ^ f →
      ∃ d rest, 0 < d ∧ d < 10 ∧ natDecAux f n [] = digitChar d :: rest := by
  induction f with
  | zero =>
    intro n hn h
    simp at h
    omega
  | succ f ih =>
    intro n hn h
    simp only [natDecAux, if_neg (by omega : ¬ n = 0)]
    by_cases h0 : n / 10 = 0
    · rw [h0, natDecAux_zero]
      have h10 : n < 10 := by omega
      exact ⟨n % 10, [], by omega, Nat.mod_lt _ (by omega), by rw [Nat.mod_eq_of_lt h10]⟩
    · have hdiv : n / 10 < 10 ^ f := by
        have h2 : n < 10 ^ f * 10 := by
          rw [pow_succ] at h
          exact h
        exact Nat.div_lt_of_lt_mul (by omega)
      obtain ⟨d, rest, hd0, hd10, heq⟩ := ih (n / 10) (by omega) hdiv
      rw [natDecAux_append, heq]
      exact ⟨d, rest ++ [digitChar (n % 10)], hd0, hd10, rfl⟩

theorem lt_ten_pow_succ (n : Nat) : n < 10 ^ (n + 1) :=
  lt_of_lt_of_le (Nat.lt_pow_self (by omega) n)
    (Nat.pow_le_pow_right (by omega) (by omega))

theorem natDecChars_mem (n : Nat) (c : Char) (hc : c ∈ natDecChars n) :
    ∃ d, d < 10 ∧ c = digitChar d := by
  by_cases h : n = 0
  · rw [h] at hc
    refine ⟨0, by omega, ?_⟩
    rcases List.mem_singleton.mp hc with rfl
    rfl
  · rw [natDecChars, if_neg h] at hc
    exact natDecAux_mem (n + 1) n c hc

theorem natDecChars_val (n : Nat) : valD 0 (natDecChars n) = n := by
  by_cases h : n = 0
  · rw [h]
    rfl
  · rw [natDecChars, if_neg h]
    exact natDecAux_val (n + 1) n (lt_ten_pow_succ n)

theorem natDecChars_shape (n : Nat) (hn : 0 < n) :
    ∃ d rest, 0 < d ∧ d < 10 ∧ natDecChars n = digitChar d :: rest := by
  rw [natDecChars, if_neg (by omega : ¬ n = 0)]
  exact natDecAux_head (n + 1) n hn (lt_ten_pow_succ n)

theorem natDecChars_all_digits (n : Nat) :
    (natDecChars n).all isDigitChar = true := by
  rw [List.all_eq_true]
  intro c hc
  obtain ⟨d, hd, rfl⟩ := natDecChars_mem n c hc
  exact isDigitChar_digitChar hd

theorem natDecChars_ne_nil (n : Nat) : natDecChars n ≠ [] := by
  by_cases h : n = 0
  · rw [h]
    exact fun hc => List.noConfusion hc
  · obtain ⟨d, rest, _, _, heq⟩ := natDecChars_shape n (by omega)
    rw [heq]
    exact fun hc => List.noConfusion hc

theorem digitsVal_natDecChars (n : Nat) : digitsVal (natDecChars n) = some n := by
  rcases hL : natDecChars n with _ | ⟨c, r⟩
  · exact absurd hL (natDecChars_ne_nil n)
  · show (if (c :: r).all isDigitChar then some (valD 0 (c :: r)) else none) = some n
    rw [if_pos (hL ▸ natDecChars_all_digits n), ← hL, natDecChars_val]

theorem leadDigits_natDecChars (n : Nat) (hn : 0 < n) :
    leadDigits (natDecChars n) = true := by
  obtain ⟨d, rest, hd0, hd10, heq⟩ := natDecChars_shape n hn
  rw [heq]
  show (isDigitChar (digitChar d) && digitChar d ≠ '0' && rest.all isDigitChar) = true
  have hall : rest.all isDigitChar = true := by
    rw [List.all_eq_true]
    intro c hc
    obtain ⟨d', hd', rfl⟩ := natDecChars_mem n c (by rw [heq]; exact List.mem_cons_of_mem _ hc)
    exact isDigitChar_digitChar hd'
  rw [isDigitChar_digitChar hd10, hall]
  simp [digitChar_ne_zero hd0 hd10]

/-! ### Helper lemmas: `FormatInt` output is the canonical literal -/

theorem decLitVal_intChars (n : Int) : decLitVal (intChars n) = some n := by
  by_cases hn : n < 0
  · rw [intChars, if_pos hn]
    simp only [decLitVal]
    rw [if_true, digitsVal_natDecChars]
    have hval : -((n.natAbs : Nat) : Int) = n := by omega
    rw [if_neg (show ¬('-' = '+') from by decide), Option.map_some', hval]
  · rw [intChars, if_neg hn]
    by_cases h0 : n = 0
    · rw [h0]
      decide
    · obtain ⟨d, rest, hd0, hd10, heq⟩ := natDecChars_shape n.natAbs (by omega)
      rw [heq]
      simp only [decLitVal]
      rw [if_neg (digitChar_not_sign hd10).1, if_neg (digitChar_not_sign hd10).2,
        ← heq, digitsVal_natDecChars, Option.map_some']
      have hval : ((n.natAbs : Nat) : Int) = n := by omega
      rw [hval]

theorem canonDecForm_intChars (n : Int) : canonDecForm (intChars n) = true := by
  by_cases hn : n < 0
  · rw [intChars, if_pos hn]
    simp only [canonDecForm]
    rw [if_true]
    exact leadDigits_natDecChars _ (by omega)
  · rw [intChars, if_neg hn]
    by_cases h0 : n = 0
    · rw [h0]
      decide
    · obtain ⟨d, rest, hd0, hd10, heq⟩ := natDecChars_shape n.natAbs (by omega)
      have hlead := leadDigits_natDecChars n.natAbs (by omega)
      rw [heq] at hlead ⊢
      simp only [canonDecForm]
      rw [if_neg (digitChar_not_sign hd10).2, hlead, Bool.or_true]

/-! ### Claim C1: unsupported widths -/

/-- Claim C1, counterexample: at an integer width above 64 (here 128) and at a
float width other than 32/64 (here 16), construction aborts with a panic; in
particular it does not return any error value, so no recoverable
`UnsupportedWidth` result exists, contrary to the claim. -/
theorem c1_counterexample :
    NewInt (.int 128) "0" = .panicked ∧
    NewFloat (.float 16) "1.0" = .panicked ∧
    ¬ (∃ e, NewInt (.int 128) "0" = .err e) ∧
    ¬ (∃ e, NewFloat (.float 16) "1.0" = .err e) := by
  refine ⟨by decide, by decide, ?_, ?_⟩
  · rintro ⟨e, he⟩
    have h0 : NewInt (.int 128) "0" = .panicked := by decide
    rw [h0] at he
    exact GoResult.noConfusion he
  · rintro ⟨e, he⟩
    have h0 : NewFloat (.float 16) "1.0" = .panicked := by decide
    rw [h0] at he
    exact GoResult.noConfusion he

/-- Claim C1, amended: for every integer type of width above 64 and every
float type of width other than 32 and 64, construction aborts the process via
`panic` (the documented not-yet-implemented gap) instead of returning a
recoverable `UnsupportedWidth` error. -/
theorem c1_unsupported_width_panics (w : Nat) (s : String) :
    (64 < w → NewInt (.int w) s = .panicked) ∧
    (w ≠ 32 → w ≠ 64 → NewFloat (.float w) s = .panicked) := by
  constructor
  · intro h
    simp only [NewInt]
    rw [if_pos h]
  · intro h32 h64
    simp only [NewFloat]
    rw [if_neg (fun hc => hc.elim h32 h64)]

/-- Claim C1, witness: the amended theorem applied at width 65 (integer) and
width 16 (float). -/
theorem c1_witness :
    NewInt (.int 65) "0" = .panicked ∧ NewFloat (.float 16) "2.0" = .panicked :=
  ⟨(c1_unsupported_width_panics 65 "0").1 (by omega),
   (c1_unsupported_width_panics 16 "2.0").2 (by omega) (by omega)⟩

/-! ### Claim C2: the 32-bit precision-loss check -/

/-- Claim C2, counterexample: `Construct(float32, "3.14")` does not succeed;
it fails with `PrecisionLoss`, because the code renders the single value
parsed at 32-bit precision at both widths: the 32-bit shortest rendering of
that value is `3.14` but its 64-bit shortest rendering is
`3.140000104904175`, and the two strings differ.  The 55-digit literal of
the claim does fail with `PrecisionLoss` as stated. -/
theorem c2_counterexample :
    NewFloat (.float 32) "3.14" = .err .precisionLoss ∧
    String.mk (formatFloat fmt32 (.finite false 13170115 (-22))) = "3.14" ∧
    String.mk (formatFloat fmt64 (.finite false 13170115 (-22))) = "3.140000104904175" ∧
    NewFloat (.float 32)
      "0.1000000000000000055511151231257827021181583404541015625" =
      .err .precisionLoss := by
  refine ⟨by decide, by decide, by decide, by decide⟩

/-- Claim C2, amended: the width-32 precision-loss check compares the
shortest 32-bit round-trip rendering and the shortest 64-bit round-trip
rendering of the one value parsed at 32-bit precision (not of an independent
64-bit parse of the literal), so every constant `NewFloat` returns at width
32 renders identically at both widths; `Construct(float32, "3.14")`
consequently fails with `PrecisionLoss`, as does the 55-digit literal. -/
theorem c2_precision_check (s : String) (v : FloatConst)
    (h : NewFloat (.float 32) s = .ok v) :
    formatFloat fmt32 v.x = formatFloat fmt64 v.x := by
  simp only [NewFloat] at h
  rw [if_pos (Or.inl trivial)] at h
  split at h
  next e _ => exact absurd h (by simp)
  next x _ =>
    split at h
    next => exact absurd h (by simp)
    next hp =>
      cases h
      push_neg at hp
      exact hp (by omega)

/-- Claim C2, witness: the amended theorem applied to `"2.5"`, which parses
at width 32 to `2.5 = 10485760 * 2^-22` and renders as `2.5` at both
widths. -/
theorem c2_witness :
    formatFloat fmt32 (.finite false 10485760 (-22)) =
      formatFloat fmt64 (.finite false 10485760 (-22)) :=
  c2_precision_check "2.5" ⟨32, .finite false 10485760 (-22)⟩ (by decide)

/-! ### Claim C5: width-1 boolean constants -/

/-- Claim C5: at width 1, `NewInt` accepts exactly `"0"`, `"1"`, `"true"`,
`"false"` (mapping `"true"`/`"1"` to 1 and `"false"`/`"0"` to 0) and rejects
every other literal with the boolean invalid-literal error; and the rendering
of a width-1 constant always shows the value as `true` or `false`. -/
theorem c5_bool_constants :
    (∀ s : String,
      NewInt (.int 1) s =
        if s = "1" ∨ s = "true" then .ok ⟨1, 1⟩
        else if s = "0" ∨ s = "false" then .ok ⟨1, 0⟩
        else .err .invalidBoolConst) ∧
    (∀ x : Int, IntString ⟨1, x⟩ = "i1 true" ∨ IntString ⟨1, x⟩ = "i1 false") := by
  constructor
  · intro s
    rfl
  · intro x
    by_cases hx : x = 1
    · subst hx
      left
      decide
    · right
      simp only [IntString, if_true]
      rw [if_neg hx]
      decide

/-! ### Claim C8: boolean keywords against non-boolean widths -/

/-- Claim C8, counterexample: at integer width 65 (a width different from 1)
the literal `"true"` does not fail with `TypeMismatch`; the construction
panics on the unsupported width before the keyword check. -/
theorem c8_counterexample :
    NewInt (.int 65) "true" = .panicked ∧
    (GoResult.panicked : GoResult IntConst) ≠ .err .intTypeMismatch := by
  exact ⟨by decide, by decide⟩

/-- Claim C8, amended: for every integer type of width at most 64 and
different from 1, the literals `"true"` and `"false"` fail with the
type-mismatch error (widths above 64 panic before this check). -/
theorem c8_bool_keyword_mismatch (w : Nat) (s : String)
    (hw : w ≤ 64) (h1 : w ≠ 1) (hs : s = "true" ∨ s = "false") :
    NewInt (.int w) s = .err .intTypeMismatch := by
  simp only [NewInt]
  rw [if_neg (by omega), if_neg h1, if_pos hs]

/-- Claim C8, witness: the amended theorem at `i32` and `"true"` (the spec's
own example). -/
theorem c8_witness : NewInt (.int 32) "true" = .err .intTypeMismatch :=
  c8_bool_keyword_mismatch 32 "true" (by omega) (by omega) (Or.inl rfl)

/-! ### Claim C9: special float tokens -/

/-- Claim C9, counterexample: the signed forms of `nan` are not parsed
successfully; `NewFloat` fails with a syntax-kind parse error on `"-nan"`
and `"+NaN"` (Go's parser accepts a sign only on the infinity tokens). -/
theorem c9_counterexample :
    NewFloat (.float 64) "-nan" = .err (.floatParse .synErr) ∧
    NewFloat (.float 64) "+NaN" = .err (.floatParse .synErr) := by
  exact ⟨by decide, by decide⟩

/-- Claim C9, amended: the case-insensitive special tokens `inf` and
`infinity` (optionally signed) and `nan` (unsigned only) are parsed
successfully by the underlying float parser; in particular
`NewFloat(double, "Inf")` returns a constant holding positive infinity
rather than failing with an invalid-literal error. -/
theorem c9_special_tokens :
    NewFloat (.float 64) "Inf" = .ok ⟨64, .inf false⟩ ∧
    NewFloat (.float 64) "+inf" = .ok ⟨64, .inf false⟩ ∧
    NewFloat (.float 64) "-iNfInItY" = .ok ⟨64, .inf true⟩ ∧
    NewFloat (.float 64) "nAn" = .ok ⟨64, .nan⟩ ∧
    NewFloat (.float 32) "inf" = .ok ⟨32, .inf false⟩ ∧
    NewFloat (.float 32) "NaN" = .ok ⟨32, .nan⟩ := by
  refine ⟨by decide, by decide, by decide, by decide, by decide, by decide⟩

/-! ### Claim C10: rendering a constructed float never panics -/

/-- Claim C10: every float constant successfully returned by `NewFloat` has a
width of 32 or 64, so `Float.String` always takes its supported branch and
never reaches the unsupported-size panic. -/
theorem c10_string_no_panic (t : Ty) (s : String) (v : FloatConst)
    (h : NewFloat t s = .ok v) : ∃ out, FloatString v = .ok out := by
  cases t with
  | int w => exact absurd h (by simp [NewFloat])
  | pointer => exact absurd h (by simp [NewFloat])
  | float w =>
    simp only [NewFloat] at h
    by_cases hw : w = 32 ∨ w = 64
    · rw [if_pos hw] at h
      split at h
      next e _ => exact absurd h (by simp)
      next x _ =>
        split at h
        next => exact absurd h (by simp)
        next =>
          cases h
          exact ⟨_, by simp only [FloatString]; rw [if_pos hw]⟩
    · rw [if_neg hw] at h
      exact absurd h (by simp)

/-- Claim C10, witness: the theorem applied to `NewFloat(double, "2.5")`. -/
theorem c10_witness :
    ∃ out, FloatString ⟨64, .finite false 5629499534213120 (-51)⟩ = .ok out :=
  c10_string_no_panic (.float 64) "2.5" ⟨64, .finite false 5629499534213120 (-51)⟩
    (by decide)

/-! ### Claim C4: classification of non-boolean integer literals -/

/-- Claim C4, counterexample: not every malformed literal fails with the
syntax-kind invalid-literal error.  `"true"` (not a base-10 literal) fails
with the type-mismatch error, and `"999x"` at width 8 fails with the
range-kind error, because the digit prefix overflows the width's unsigned
cutoff before the scan reaches the invalid character `x`. -/
theorem c4_counterexample :
    NewInt (.int 8) "true" = .err .intTypeMismatch ∧
    NewInt (.int 8) "999x" = .err (.intParse .rangeErr) ∧
    ConstError.intTypeMismatch ≠ .intParse .synErr ∧
    ConstError.intParse .rangeErr ≠ .intParse .synErr := by
  exact ⟨by decide, by decide, by decide, by decide⟩

/-- Claim C4, amended: for every integer type of width `w` in `[2,64]`,
`NewInt` succeeds exactly on well-formed base-10 signed integer literals
whose value lies in `[-2^(w-1), 2^(w-1)-1]`; well-formed out-of-range
literals fail with the range error; malformed literals fail with the syntax
error, except that the exact keywords `"true"`/`"false"` fail with the
type-mismatch error and a malformed literal whose leading digit run already
overflows reports the range error. -/
theorem c4_int_literal_classification (w : Nat) (s : String)
    (hw1 : 2 ≤ w) (hw2 : w ≤ 64) :
    (∀ n : Int, decLitVal s.data = some n →
      ((-((2 ^ (w - 1) : Nat) : Int) ≤ n ∧ n ≤ ((2 ^ (w - 1) : Nat) : Int) - 1) →
          NewInt (.int w) s = .ok ⟨w, n⟩) ∧
      ((n < -((2 ^ (w - 1) : Nat) : Int) ∨ ((2 ^ (w - 1) : Nat) : Int) - 1 < n) →
          NewInt (.int w) s = .err (.intParse .rangeErr))) ∧
    (decLitVal s.data = none → s ≠ "true" → s ≠ "false" →
      NewInt (.int w) s = .err (.intParse .synErr) ∨
      NewInt (.int w) s = .err (.intParse .rangeErr)) ∧
    (∀ v : IntConst, NewInt (.int w) s = .ok v →
      ∃ n : Int, decLitVal s.data = some n ∧
        -((2 ^ (w - 1) : Nat) : Int) ≤ n ∧ n ≤ ((2 ^ (w - 1) : Nat) : Int) - 1 ∧
        v = ⟨w, n⟩) := by
  refine ⟨?_, ?_, ?_⟩
  · intro n h
    exact ⟨fun hb => NewInt_ok_of_decLit w s n hw1 hw2 h hb.1 hb.2,
           fun hb => NewInt_range_of_decLit w s n hw1 hw2 h hb⟩
  · intro h ht hf
    exact NewInt_malformed w s hw1 hw2 h ht hf
  · intro v hok
    rcases hd : decLitVal s.data with _ | n
    · by_cases ht : s = "true"
      · rw [NewInt_keyword w s hw2 (by omega) (Or.inl ht)] at hok
        exact absurd hok (by simp)
      · by_cases hf : s = "false"
        · rw [NewInt_keyword w s hw2 (by omega) (Or.inr hf)] at hok
          exact absurd hok (by simp)
        · rcases NewInt_malformed w s hw1 hw2 hd ht hf with he | he <;>
            rw [he] at hok <;> exact absurd hok (by simp)
    · by_cases hb : -((2 ^ (w - 1) : Nat) : Int) ≤ n ∧ n ≤ ((2 ^ (w - 1) : Nat) : Int) - 1
      · rw [NewInt_ok_of_decLit w s n hw1 hw2 hd hb.1 hb.2] at hok
        exact ⟨n, rfl, hb.1, hb.2, (GoResult.ok.inj hok).symm⟩
      · rw [NewInt_range_of_decLit w s n hw1 hw2 hd (by omega)] at hok
        exact absurd hok (by simp)

/-- Claim C4, witness: the amended theorem applied at width 8 to the spec's
boundary literals `"127"`, `"128"`, `"-128"`, `"-129"`. -/
theorem c4_witness :
    NewInt (.int 8) "127" = .ok ⟨8, 127⟩ ∧
    NewInt (.int 8) "128" = .err (.intParse .rangeErr) ∧
    NewInt (.int 8) "-128" = .ok ⟨8, -128⟩ ∧
    NewInt (.int 8) "-129" = .err (.intParse .rangeErr) := by
  refine ⟨?_, ?_, ?_, ?_⟩
  · exact (((c4_int_literal_classification 8 "127" (by omega) (by omega)).1 127
      (by decide)).1 ⟨by decide, by decide⟩)
  · exact (((c4_int_literal_classification 8 "128" (by omega) (by omega)).1 128
      (by decide)).2 (Or.inr (by decide)))
  · exact (((c4_int_literal_classification 8 "-128" (by omega) (by omega)).1 (-128)
      (by decide)).1 ⟨by decide, by decide⟩)
  · exact (((c4_int_literal_classification 8 "-129" (by omega) (by omega)).1 (-129)
      (by decide)).2 (Or.inl (by decide)))

/-! ### Claim C6: formatting reproduces the canonical decimal form -/

/-- Claim C6: for every integer type of width `w` in `[2,64]` and every
literal that is the decimal text of an integer `n` in
`[-2^(w-1), 2^(w-1)-1]`, the constant built by `NewInt` holds `n`, its
rendering is the type text followed by a space and `FormatInt`'s decimal
rendering of `n`, and that rendering is the canonical base-10 signed decimal
form of `n` (it parses back to `n` and has no plus sign, no leading zeros,
and a minus sign exactly for negative values). -/
theorem c6_format_reproduces_canonical (w : Nat) (s : String) (n : Int)
    (hw1 : 2 ≤ w) (hw2 : w ≤ 64) (hv : decLitVal s.data = some n)
    (hlo : -((2 ^ (w - 1) : Nat) : Int) ≤ n)
    (hhi : n ≤ ((2 ^ (w - 1) : Nat) : Int) - 1) :
    NewInt (.int w) s = .ok ⟨w, n⟩ ∧
    IntString ⟨w, n⟩ = String.mk ('i' :: natDecChars w ++ ' ' :: intChars n) ∧
    decLitVal (intChars n) = some n ∧
    canonDecForm (intChars n) = true := by
  refine ⟨NewInt_ok_of_decLit w s n hw1 hw2 hv hlo hhi, ?_, decLitVal_intChars n,
    canonDecForm_intChars n⟩
  simp only [IntString, tyChars]
  rw [if_neg (by omega : ¬ w = 1)]

/-- Claim C6, witness: the theorem applied at width 8 to the non-canonical
literal `"007"`, whose constant renders back as the canonical `"i8 7"`. -/
theorem c6_witness :
    NewInt (.int 8) "007" = .ok ⟨8, 7⟩ ∧
    IntString ⟨8, 7⟩ = String.mk ('i' :: natDecChars 8 ++ ' ' :: intChars 7) ∧
    decLitVal (intChars 7) = some 7 ∧
    canonDecForm (intChars 7) = true :=
  c6_format_reproduces_canonical 8 "007" 7 (by omega) (by omega) (by decide)
    (by decide) (by decide)

/-! ### Claim C3: hexadecimal literals -/

theorem spanP_all (p : Char → Bool) (l : List Char) (h : ∀ c ∈ l, p c = true) :
    spanP p l = (l, []) := by
  induction l with
  | nil => rfl
  | cons c r ih =>
    have hc := h c (List.mem_cons_self c r)
    simp [spanP, hc, ih (fun x hx => h x (List.mem_cons_of_mem _ hx))]

theorem spanP_head_false (p : Char → Bool) (c : Char) (r : List Char)
    (hc : p c = false) : spanP p (c :: r) = ([], c :: r) := by
  simp [spanP, hc]

theorem readHex_all_hex (neg : Bool) (r : List Char)
    (hall : ∀ c ∈ r, isHexDigitChar c = true) : readHex neg r = none := by
  simp only [readHex, spanP_all isHexDigitChar r hall, fracSplit]
  split
  · rfl
  · rfl

theorem klmh_not_hex (k : Char) (hk : klmh k = true) :
    isHexDigitChar k = false ∧ k ≠ '.' := by
  rcases (by simpa [klmh] using hk : ((k = 'K' ∨ k = 'L') ∨ k = 'M') ∨ k = 'H') with
    ((rfl | rfl) | rfl) | rfl <;> exact ⟨by decide, by decide⟩

theorem readHex_klmh (neg : Bool) (k : Char) (ds : List Char)
    (hk : klmh k = true) : readHex neg (k :: ds) = none := by
  obtain ⟨hhex, hdot⟩ := klmh_not_hex k hk
  simp only [readHex, spanP_head_false isHexDigitChar k ds hhex, fracSplit]
  rw [if_neg hdot, if_pos (by simp)]

theorem specialFull_head (c : Char) (r : List Char)
    (hc1 : c ≠ '+') (hc2 : c ≠ '-') (hc3 : lowerChar c ≠ 'i')
    (hc4 : lowerChar c ≠ 'n') : specialFull (c :: r) = none := by
  have hinf : infTok (c :: r) = false := by
    simp [infTok, hc3]
  have hnan : ¬ ((c :: r).map lowerChar = "nan".data) := by
    simp [hc4]
  simp only [specialFull]
  rw [if_neg hc1, if_neg hc2, if_neg (by simp [hinf]), if_neg hnan]

theorem parseIntGo_bad_head (b : Nat) (c : Char) (R : List Char)
    (hns : ¬ (c = '+' ∨ c = '-')) (hnd : isDigitChar c = false) :
    parseIntGo b (c :: R) = .error .synErr := by
  simp only [parseIntGo]
  rw [if_neg hns]
  have hu : parseUintGo b (c :: R) = .error .synErr := by
    simp only [parseUintGo]
    rw [if_neg (by simp)]
    simp only [parseUintLoop]
    rw [if_neg (by simp [hnd])]
  rw [hu]

/-- Claim C3, counterexample: hexadecimal literals do fail, but with the same
generic syntax-kind parse error that any malformed literal receives (compare
`"#@"`); there is no distinguished `UnsupportedLiteralForm` error value. -/
theorem c3_counterexample :
    NewInt (.int 32) "u0xFF" = .err (.intParse .synErr) ∧
    NewInt (.int 32) "#@" = .err (.intParse .synErr) ∧
    NewFloat (.float 64) "0x4B" = .err (.floatParse .synErr) ∧
    NewFloat (.float 64) "#@" = .err (.floatParse .synErr) := by
  exact ⟨by decide, by decide, by decide, by decide⟩

/-- Claim C3, amended: every hexadecimal literal input (integer forms
`[us]0x[0-9A-Fa-f]+` given to `NewInt` at a width in `[2,64]`, float forms
`0x[KLMH]?[0-9A-Fa-f]+` given to `NewFloat` at width 32 or 64) fails with
the generic syntax-kind parse error — the same error every malformed literal
receives, not a distinguished `UnsupportedLiteralForm` — and is never
silently parsed as a decimal value. -/
theorem c3_hex_literals_rejected (w wf : Nat) (s t : String)
    (hw1 : 2 ≤ w) (hw2 : w ≤ 64) (hwf : wf = 32 ∨ wf = 64) :
    (hexIntLit s.data = true → NewInt (.int w) s = .err (.intParse .synErr)) ∧
    (hexFloatLit t.data = true → NewFloat (.float wf) t = .err (.floatParse .synErr)) := by
  constructor
  · intro hhex
    unfold hexIntLit at hhex
    split at hhex
    next c ds heq =>
      simp only [Bool.and_eq_true, Bool.or_eq_true, decide_eq_true_eq] at hhex
      obtain ⟨⟨hc, _⟩, _⟩ := hhex
      have hns : ¬ (c = '+' ∨ c = '-') := by
        rcases hc with rfl | rfl <;> decide
      have hnd : isDigitChar c = false := by
        rcases hc with rfl | rfl <;> decide
      have ht : s ≠ "true" := by
        intro h
        rw [h] at heq
        simp at heq
      have hf : s ≠ "false" := by
        intro h
        rw [h] at heq
        simp at heq
      simp only [NewInt]
      rw [if_neg (by omega), if_neg (by omega), if_neg (fun hc2 => hc2.elim ht hf),
        heq, parseIntGo_bad_head w c ('0' :: 'x' :: ds) hns hnd]
    next => exact absurd hhex (by decide)
  · intro hhex
    unfold hexFloatLit at hhex
    split at hhex
    next r heq =>
      have hrh : readHex false r = none := by
        rw [Bool.or_eq_true] at hhex
        rcases hhex with ha | hb
        · rw [Bool.and_eq_true] at ha
          exact readHex_all_hex false r (fun c hc => List.all_eq_true.mp ha.2 c hc)
        · rcases r with _ | ⟨k, ds⟩
          · exact absurd hb (by decide)
          · rw [Bool.and_eq_true, Bool.and_eq_true] at hb
            exact readHex_klmh false k ds hb.1.1
      have hsp : specialFull t.data = none := by
        rw [heq]
        exact specialFull_head '0' _ (by decide) (by decide) (by decide) (by decide)
      have hrd : readFloatLit t.data = none := by
        rw [heq]
        simp only [readFloatLit]
        rw [if_neg (by decide), if_neg (by decide)]
        simp only [readFloatBody]
        rw [if_pos ⟨trivial, Or.inl trivial⟩]
        exact hrh
      have hpf : parseFloatGo (fmtOfSize wf) t.data = .error .synErr := by
        simp [parseFloatGo, hsp, hrd]
      simp only [NewFloat]
      rw [if_pos hwf, hpf]
    next => exact absurd hhex (by decide)

/-- Claim C3, witness: the amended theorem applied to the hexadecimal
integer literal `"s0x1f"` at `i32` and the hexadecimal float literal
`"0xK12"` at `double`. -/
theorem c3_witness :
    NewInt (.int 32) "s0x1f" = .err (.intParse .synErr) ∧
    NewFloat (.float 64) "0xK12" = .err (.floatParse .synErr) :=
  ⟨(c3_hex_literals_rejected 32 64 "s0x1f" "0xK12" (by omega) (by omega)
      (Or.inr rfl)).1 (by decide),
   (c3_hex_literals_rejected 32 64 "s0x1f" "0xK12" (by omega) (by omega)
      (Or.inr rfl)).2 (by decide)⟩

/-! ### Claim C7: canonicalisation of the float rendering -/

theorem containsEPlus_cons (c : Char) (l : List Char) (hc : c ≠ 'e') :
    containsEPlus (c :: l) = containsEPlus l := by
  cases l with
  | nil => rfl
  | cons b r =>
    show ((c = 'e' && b = '+') || containsEPlus (b :: r)) = containsEPlus (b :: r)
    simp [hc]

theorem containsEPlus_e_cons (b : Char) (l : List Char) (hb : b ≠ '+') :
    containsEPlus ('e' :: b :: l) = containsEPlus (b :: l) := by
  show (('e' = 'e' && b = '+') || containsEPlus (b :: l)) = containsEPlus (b :: l)
  simp [hb]

theorem containsEPlus_of_no_e (l : List Char) (h : 'e' ∉ l) :
    containsEPlus l = false := by
  induction l with
  | nil => rfl
  | cons a r ih =>
    have ha : a ≠ 'e' := fun hc => h (hc ▸ List.mem_cons_self a r)
    rw [containsEPlus_cons a r ha]
    exact ih (fun hc => h (List.mem_cons_of_mem _ hc))

theorem replaceEPlus_of_not_contains (l : List Char)
    (h : containsEPlus l = false) : replaceEPlus l = l := by
  induction l with
  | nil => rfl
  | cons a r ih =>
    cases r with
    | nil => rfl
    | cons b rr =>
      have h2 : ((a = 'e' && b = '+') || containsEPlus (b :: rr)) = false := h
      rw [Bool.or_eq_false_iff] at h2
      show (if a = 'e' ∧ b = '+' then 'e' :: replaceEPlus rr
        else a :: replaceEPlus (b :: rr)) = a :: b :: rr
      rw [if_neg (fun hc => by simp [hc.1, hc.2] at h2), ih h2.2]

theorem containsEPlus_append_e (A B : List Char)
    (hA : 'e' ∉ A) (hB : 'e' ∉ B) (hpB : '+' ∉ B) :
    containsEPlus (A ++ 'e' :: B) = false := by
  induction A with
  | nil =>
    show containsEPlus ('e' :: B) = false
    cases B with
    | nil => rfl
    | cons b r =>
      have hb : b ≠ '+' := fun hc => hpB (hc ▸ List.mem_cons_self b r)
      rw [containsEPlus_e_cons b r hb]
      exact containsEPlus_of_no_e _ hB
  | cons a A' ih =>
    have ha : a ≠ 'e' := fun hc => hA (hc ▸ List.mem_cons_self a A')
    have hA' : 'e' ∉ A' := fun hc => hA (List.mem_cons_of_mem _ hc)
    show containsEPlus (a :: (A' ++ 'e' :: B)) = false
    rw [containsEPlus_cons a _ ha]
    exact ih hA'

theorem replaceEPlus_append_eplus (A B : List Char) (hA : 'e' ∉ A) :
    replaceEPlus (A ++ 'e' :: '+' :: B) = A ++ 'e' :: replaceEPlus B := by
  induction A with
  | nil =>
    show replaceEPlus ('e' :: '+' :: B) = 'e' :: replaceEPlus B
    show (if ('e' : Char) = 'e' ∧ ('+' : Char) = '+' then 'e' :: replaceEPlus B
      else 'e' :: replaceEPlus ('+' :: B)) = 'e' :: replaceEPlus B
    rw [if_pos ⟨rfl, rfl⟩]
  | cons a A' ih =>
    have ha : a ≠ 'e' := fun hc => hA (hc ▸ List.mem_cons_self a A')
    have hA' : 'e' ∉ A' := fun hc => hA (List.mem_cons_of_mem _ hc)
    cases A' with
    | nil =>
      show (if a = 'e' ∧ ('e' : Char) = '+' then 'e' :: replaceEPlus ('+' :: B)
        else a :: replaceEPlus ('e' :: '+' :: B)) = a :: 'e' :: replaceEPlus B
      rw [if_neg (fun hc => ha hc.1)]
      have := ih (List.not_mem_nil 'e')
      rw [List.nil_append] at this
      rw [this]
      rfl
    | cons a2 A'' =>
      show (if a = 'e' ∧ a2 = '+' then
          'e' :: replaceEPlus (A'' ++ 'e' :: '+' :: B)
        else a :: replaceEPlus (a2 :: (A'' ++ 'e' :: '+' :: B))) =
        a :: (a2 :: A'' ++ 'e' :: replaceEPlus B)
      rw [if_neg (fun hc => ha hc.1)]
      have h2 : a2 :: (A'' ++ 'e' :: '+' :: B) = (a2 :: A'') ++ 'e' :: '+' :: B := rfl
      rw [h2, ih hA']

theorem insertDotAux_mem (l : List Char) (c : Char) (h : c ∈ insertDotAux l) :
    c ∈ l ∨ c = '.' ∨ c = '0' := by
  induction l with
  | nil =>
    rcases List.mem_cons.mp h with h1 | h1
    · exact Or.inr (Or.inl h1)
    · rcases List.mem_cons.mp h1 with h2 | h2
      · exact Or.inr (Or.inr h2)
      · exact absurd h2 (List.not_mem_nil c)
  | cons a r ih =>
    by_cases ha : a = 'e'
    · rw [insertDotAux, if_pos ha] at h
      rcases List.mem_cons.mp h with h1 | h1
      · exact Or.inr (Or.inl h1)
      · rcases List.mem_cons.mp h1 with h2 | h2
        · exact Or.inr (Or.inr h2)
        · exact Or.inl h2
    · rw [insertDotAux, if_neg ha] at h
      rcases List.mem_cons.mp h with h1 | h1
      · exact Or.inl (h1 ▸ List.mem_cons_self a r)
      · rcases ih h1 with h2 | h2
        · exact Or.inl (List.mem_cons_of_mem _ h2)
        · exact Or.inr h2

theorem insertDotAux_append_e (A R : List Char) (hA : 'e' ∉ A) :
    insertDotAux (A ++ 'e' :: R) = A ++ '.' :: '0' :: 'e' :: R := by
  induction A with
  | nil =>
    show insertDotAux ('e' :: R) = '.' :: '0' :: 'e' :: R
    rw [insertDotAux, if_pos rfl]
  | cons a A' ih =>
    have ha : a ≠ 'e' := fun hc => hA (hc ▸ List.mem_cons_self a A')
    have hA' : 'e' ∉ A' := fun hc => hA (List.mem_cons_of_mem _ hc)
    show insertDotAux (a :: (A' ++ 'e' :: R)) = a :: (A' ++ '.' :: '0' :: 'e' :: R)
    rw [insertDotAux, if_neg ha, ih hA']

theorem canon_no_eplus (l : List Char) (h : EPlusSafe l) :
    containsEPlus (canonFloatChars l) = false := by
  rcases h with hn | ⟨A, c, B, rfl, hA, hB, hpB, hc⟩
  · have h1 : 'e' ∉ insertDot l := by
      intro hmem
      unfold insertDot at hmem
      split at hmem
      · exact hn hmem
      · rcases insertDotAux_mem l 'e' hmem with h2 | h2 | h2
        · exact hn h2
        · exact absurd h2 (by decide)
        · exact absurd h2 (by decide)
    have h2 := containsEPlus_of_no_e _ h1
    rw [canonFloatChars, replaceEPlus_of_not_contains _ h2]
    exact h2
  · obtain ⟨A', hEq, hA'⟩ :
        ∃ A', insertDot (A ++ 'e' :: c :: B) = A' ++ 'e' :: c :: B ∧ 'e' ∉ A' := by
      unfold insertDot
      split
      · exact ⟨A, rfl, hA⟩
      · refine ⟨A ++ ['.', '0'], ?_, ?_⟩
        · rw [insertDotAux_append_e A (c :: B) hA]
          simp
        · intro hmem
          rcases List.mem_append.mp hmem with h2 | h2
          · exact hA h2
          · rcases List.mem_cons.mp h2 with h3 | h3
            · exact absurd h3 (by decide)
            · rcases List.mem_cons.mp h3 with h4 | h4
              · exact absurd h4 (by decide)
              · exact absurd h4 (List.not_mem_nil _)
    rw [canonFloatChars, hEq]
    rcases hc with rfl | rfl
    · rw [replaceEPlus_append_eplus A' B hA',
        replaceEPlus_of_not_contains B (containsEPlus_of_no_e B hB)]
      exact containsEPlus_append_e A' B hA' hB hpB
    · have hB2 : 'e' ∉ '-' :: B := by
        intro hmem
        rcases List.mem_cons.mp hmem with h2 | h2
        · exact absurd h2 (by decide)
        · exact hB h2
      have hpB2 : '+' ∉ '-' :: B := by
        intro hmem
        rcases List.mem_cons.mp hmem with h2 | h2
        · exact absurd h2 (by decide)
        · exact hpB h2
      have h2 := containsEPlus_append_e A' ('-' :: B) hA' hB2 hpB2
      rw [replaceEPlus_of_not_contains _ h2]
      exact h2

theorem natDecChars_no_e (n : Nat) : 'e' ∉ natDecChars n := by
  intro h
  obtain ⟨d, hd, he⟩ := natDecChars_mem n 'e' h
  interval_cases d <;> exact absurd he (by decide)

theorem natDecChars_no_plus (n : Nat) : '+' ∉ natDecChars n := by
  intro h
  obtain ⟨d, hd, he⟩ := natDecChars_mem n '+' h
  interval_cases d <;> exact absurd he (by decide)

theorem mantPart_mem (L : List Char) (c : Char) (h : c ∈ mantPart L) :
    c ∈ L ∨ c = '.' := by
  cases L with
  | nil => exact absurd h (List.not_mem_nil c)
  | cons a r =>
    cases r with
    | nil => exact Or.inl h
    | cons b rr =>
      rcases List.mem_cons.mp h with h1 | h1
      · exact Or.inl (h1 ▸ List.mem_cons_self a (b :: rr))
      · rcases List.mem_cons.mp h1 with h2 | h2
        · exact Or.inr h2
        · exact Or.inl (List.mem_cons_of_mem _ h2)

theorem expDigits_mem (n : Nat) (c : Char) (h : c ∈ expDigits n) :
    c ∈ natDecChars n ∨ c = '0' := by
  simp only [expDigits] at h
  split at h
  · rcases List.mem_cons.mp h with h1 | h1
    · exact Or.inr h1
    · exact Or.inl h1
  · exact Or.inl h

theorem fmtE_safe (neg : Bool) (D : List Char) (exp : Int)
    (hDe : 'e' ∉ D) : EPlusSafe (fmtE neg D exp) := by
  right
  refine ⟨(if neg then ['-'] else []) ++ mantPart D,
    (if exp < 0 then '-' else '+'), expDigits exp.natAbs, rfl, ?_, ?_, ?_, ?_⟩
  · intro h
    rcases List.mem_append.mp h with h1 | h1
    · split at h1
      · rcases List.mem_singleton.mp h1 with h2
        exact absurd h2 (by decide)
      · exact absurd h1 (List.not_mem_nil _)
    · rcases mantPart_mem D 'e' h1 with h2 | h2
      · exact hDe h2
      · exact absurd h2 (by decide)
  · intro h
    rcases expDigits_mem _ 'e' h with h1 | h1
    · exact natDecChars_no_e _ h1
    · exact absurd h1 (by decide)
  · intro h
    rcases expDigits_mem _ '+' h with h1 | h1
    · exact natDecChars_no_plus _ h1
    · exact absurd h1 (by decide)
  · split
    · exact Or.inr rfl
    · exact Or.inl rfl

theorem fmtF_no_e (neg : Bool) (D : List Char) (dp : Int) (hDe : 'e' ∉ D) :
    'e' ∉ fmtF neg D dp := by
  intro h
  unfold fmtF at h
  rcases List.mem_append.mp h with h1 | h1
  · split at h1
    · rcases List.mem_singleton.mp h1 with h2
      exact absurd h2 (by decide)
    · exact absurd h1 (List.not_mem_nil _)
  · split at h1
    · rcases List.mem_cons.mp h1 with h2 | h2
      · exact absurd h2 (by decide)
      · rcases List.mem_cons.mp h2 with h3 | h3
        · exact absurd h3 (by decide)
        · rcases List.mem_append.mp h3 with h4 | h4
          · exact absurd (List.eq_of_mem_replicate h4) (by decide)
          · exact hDe h4
    · split at h1
      · rcases List.mem_append.mp h1 with h2 | h2
        · exact hDe h2
        · exact absurd (List.eq_of_mem_replicate h2) (by decide)
      · rcases List.mem_append.mp h1 with h2 | h2
        · exact hDe (List.take_subset _ _ h2)
        · rcases List.mem_cons.mp h2 with h3 | h3
          · exact absurd h3 (by decide)
          · exact hDe (List.drop_subset _ _ h3)

theorem formatFin_safe (fmt : FpFormat) (neg : Bool) (m : Nat) (e : Int) :
    EPlusSafe (formatFin fmt neg m e) := by
  unfold formatFin
  rcases hs : shortestDigits fmt neg m e 18 1 with ⟨D, dp⟩
  simp only
  split
  · exact fmtE_safe neg (natDecChars D) (dp - 1) (natDecChars_no_e D)
  · exact Or.inl (fmtF_no_e neg (natDecChars D) dp (natDecChars_no_e D))

theorem formatFloat_safe (fmt : FpFormat) (v : GoFloat) :
    EPlusSafe (formatFloat fmt v) := by
  have hnan : EPlusSafe ("NaN".data) := Or.inl (by decide)
  have hpinf : EPlusSafe ("+Inf".data) := Or.inl (by decide)
  have hninf : EPlusSafe ("-Inf".data) := Or.inl (by decide)
  cases v with
  | nan => exact hnan
  | inf neg =>
    cases neg
    · exact hpinf
    · exact hninf
  | finite neg m e =>
    simp only [formatFloat]
    split
    · exact hnan
    · split
      · exact hninf
      · exact hpinf
    · split
      · split
        · exact Or.inl (by decide)
        · exact Or.inl (by decide)
      · apply formatFin_safe

theorem floatString_no_eplus (v : FloatConst) (t : String)
    (h : FloatString v = .ok t) : containsEPlus t.data = false := by
  simp only [FloatString] at h
  by_cases hw : v.width = 32 ∨ v.width = 64
  · rw [if_pos hw] at h
    have ht := (GoResult.ok.inj h).symm
    subst ht
    show containsEPlus (tyChars (.float v.width) ++ ' ' ::
      canonFloatChars (formatFloat (fmtOfSize v.width) v.x)) = false
    have hcanon := canon_no_eplus _ (formatFloat_safe (fmtOfSize v.width) v.x)
    rcases hw with h32 | h64
    · rw [h32]
      show containsEPlus ('f' :: 'l' :: 'o' :: 'a' :: 't' :: ' ' ::
        canonFloatChars (formatFloat (fmtOfSize 32) v.x)) = false
      rw [containsEPlus_cons _ _ (by decide), containsEPlus_cons _ _ (by decide),
        containsEPlus_cons _ _ (by decide), containsEPlus_cons _ _ (by decide),
        containsEPlus_cons _ _ (by decide), containsEPlus_cons _ _ (by decide)]
      rw [h32] at hcanon
      exact hcanon
    · rw [h64]
      show containsEPlus ('d' :: 'o' :: 'u' :: 'b' :: 'l' :: 'e' :: ' ' ::
        canonFloatChars (formatFloat (fmtOfSize 64) v.x)) = false
      rw [containsEPlus_cons _ _ (by decide), containsEPlus_cons _ _ (by decide),
        containsEPlus_cons _ _ (by decide), containsEPlus_cons _ _ (by decide),
        containsEPlus_cons _ _ (by decide)]
      cases hrest : canonFloatChars (formatFloat (fmtOfSize 64) v.x) with
      | nil => decide
      | cons b rr =>
        have hb : containsEPlus ('e' :: ' ' :: b :: rr) = containsEPlus (' ' :: b :: rr) :=
          containsEPlus_e_cons ' ' (b :: rr) (by decide)
        rw [hb, containsEPlus_cons _ _ (by decide)]
        rw [h64, hrest] at hcanon
        exact hcanon
  · rw [if_neg hw] at h
    exact absurd h (by simp)

/-- Claim C7, counterexample: `Construct(double, "3e4")` does not format as
`"double 3.0e4"`.  The shortest rendering of the value 30000 has no exponent
marker (`"30000"`), so the decimal point is appended and the result is
`"double 30000.0"`. -/
theorem c7_counterexample :
    NewFloat (.float 64) "3e4" = .ok ⟨64, .finite false 8246337208320000 (-38)⟩ ∧
    FloatString ⟨64, .finite false 8246337208320000 (-38)⟩ = .ok "double 30000.0" ∧
    ("double 30000.0" : String) ≠ "double 3.0e4" := by
  exact ⟨by decide, by decide, by decide⟩

/-- Claim C7, amended: `Float.String` canonicalises the shortest round-trip
rendering by (1) inserting a decimal point when none is present — before the
exponent marker if one exists, otherwise appended — and (2) removing an
explicit `+` after the exponent marker; no formatted output ever contains
`"e+"`.  `Construct(double, "3e4")` formats as `"double 30000.0"` (its
shortest rendering has no exponent, so the point is appended), while
`Construct(double, "3e6")` formats as `"double 3.0e06"` (point inserted
before the marker of `"3e+06"`, plus sign removed) and
`Construct(double, "42")` formats as `"double 42.0"`. -/
theorem c7_canonicalization :
    (∀ (v : FloatConst) (t : String),
      FloatString v = .ok t → containsEPlus t.data = false) ∧
    NewFloat (.float 64) "3e6" = .ok ⟨64, .finite false 6442450944000000 (-31)⟩ ∧
    FloatString ⟨64, .finite false 6442450944000000 (-31)⟩ = .ok "double 3.0e06" ∧
    NewFloat (.float 64) "42" = .ok ⟨64, .finite false 5910974510923776 (-47)⟩ ∧
    FloatString ⟨64, .finite false 5910974510923776 (-47)⟩ = .ok "double 42.0" :=
  ⟨floatString_no_eplus, by decide, by decide, by decide, by decide⟩

/-- Claim C7, witness: the universal part of the amended theorem applied to
the constant for `3e6` and its rendered output. -/
theorem c7_witness :
    containsEPlus ("double 3.0e06" : String).data = false :=
  c7_canonicalization.1 ⟨64, .finite false 6442450944000000 (-31)⟩ "double 3.0e06"
    (by decide)
